import Mathlib

/-!
Verification of the chord-explorer repository: a shallow embedding of its
pixel buffer, canvas/region allocator, bitmap font loader, glyph rasterizer
and tabs widget, together with theorems settling the specification claims.

Modelling conventions:
* Rust `i32` values are modelled as `Int` (no claim here hinges on 32-bit
  wrap-around); `usize` casts of possibly-negative numbers keep the Rust
  `as`-cast semantics via `usizeCast` (reduction modulo `2 ^ 64`).
* Rust operations that can panic (slice indexing with a reversed or
  out-of-range range, `Option::unwrap`, integer division by zero) are
  modelled with `Option`/an explicit `panicked` result: `none`/`panicked`
  means the Rust code aborts with a panic at that point.
* Rust strings are modelled as `List Char`; `HashMap` is modelled as a
  function into `Option`, with insertion as pointwise update
  (last-write-wins, as for the hash map).
* Rust `i32` division truncates towards zero, which is `Int.tdiv`.
-/

/-- The `as usize` cast of an `i32` value: reduction modulo `2 ^ 64`
(a negative value becomes a huge unsigned one, as in Rust). -/
def usizeCast (n : Int) : Nat := (n % (2 ^ 64 : Int)).toNat

/-- RGBA8 color, `[u8; 4]` in the source (`main.rs`). -/
structure Color where
  r : Fin 256
  g : Fin 256
  b : Fin 256
  a : Fin 256
deriving DecidableEq, Repr

/-- `invert` from `main.rs`: `[255 - c[0], 255 - c[1], 255 - c[2], 255 - c[3]]`. -/
def invert (c : Color) : Color :=
  ⟨⟨255 - c.r.val, by omega⟩, ⟨255 - c.g.val, by omega⟩,
   ⟨255 - c.b.val, by omega⟩, ⟨255 - c.a.val, by omega⟩⟩

/-- `PixBuf` from `main.rs`: a flat row-major pixel buffer with dimensions. -/
structure PixBuf where
  buf : List Color
  width : Int
  height : Int
deriving DecidableEq, Repr

/-- `PixBuf::set_pixel`: write `color` at `(x, y)` if the coordinate is inside
`[0, width) × [0, height)`, otherwise drop the write (never index the buffer). -/
def PixBuf.set_pixel (b : PixBuf) (x y : Int) (color : Color) : PixBuf :=
  if 0 ≤ x ∧ 0 ≤ y ∧ x < b.width ∧ y < b.height then
    { b with buf := b.buf.set (x + y * b.width).toNat color }
  else b

/-- The list of integers `a, a+1, ..., b-1` (a Rust `a..b` range; empty when `b ≤ a`). -/
def rangeI (a b : Int) : List Int :=
  (List.range (b - a).toNat).map (fun (i : Nat) => a + (i : Int))

/-- `PixBuf::set_scaled_pixel`: paint the `scale × scale` block of destination
pixels corresponding to logical pixel `(x, y)`, clipping each write. -/
def PixBuf.set_scaled_pixel (b : PixBuf) (x y scale : Int) (color : Color) : PixBuf :=
  (rangeI (y * scale) (y * scale + scale)).foldl
    (fun b1 yy =>
      (rangeI (x * scale) (x * scale + scale)).foldl
        (fun b2 xx => b2.set_pixel xx yy color) b1)
    b

/-- `CutDir` from `widget.rs`. -/
inductive CutDir where
  | Horizontal
  | Vertical
deriving DecidableEq, Repr

/-- `Rect` from `widget.rs`. -/
structure Rect where
  x : Int
  y : Int
  width : Int
  height : Int
deriving DecidableEq, Repr

/-- `Rect::contains`. -/
def Rect.contains (r : Rect) (x y : Int) : Bool :=
  x ≥ r.x && y ≥ r.y && x < r.x + r.width && y < r.y + r.height

/-- `CharData` from `font.rs`: one glyph bitmap (bytes kept as `Nat`,
the parser only ever stores values `< 256`). -/
structure CharData where
  width : Int
  height : Int
  xo : Int
  yo : Int
  data : List Nat
deriving DecidableEq, Repr

/-- `Font` from `font.rs`; the two hash maps are modelled as functions. -/
structure Font where
  width : Int
  height : Int
  chars : Char → Option CharData
  ligatures : Char × Char → Option CharData

/-- `HashMap::insert` into `Font.chars` (later records overwrite earlier ones). -/
def Font.insertChar (f : Font) (c : Char) (cd : CharData) : Font :=
  { f with chars := fun x => if x = c then some cd else f.chars x }

/-- `Events` from `widget.rs`. -/
structure Events where
  mouse_left : Bool
  mouse_middle : Bool
  mouse_right : Bool
  cursor : Option (Int × Int)
deriving DecidableEq, Repr

/-- `Visuals` from `widget.rs`. -/
structure Visuals where
  font : Font
  text_size : Int
  dir : CutDir
  color : Color

/-- `Canvas` from `widget.rs`. -/
structure Canvas where
  pix : PixBuf
  rect : Rect
  visuals : Visuals
  events : Events

/-- `Canvas::hover`: the cursor, when present, lies inside the current rect. -/
def Canvas.hover (c : Canvas) : Bool :=
  match c.events.cursor with
  | some (x, y) => c.rect.contains x y
  | none => false

/-- `Canvas::mouse_left`. -/
def Canvas.mouse_left (c : Canvas) : Bool := c.hover && c.events.mouse_left

/-- `Canvas::with_rect` for a body that cannot panic: save the current
`(Rect, Visuals)`, run the body on the given rect, restore the saved pair. -/
def Canvas.with_rect (c : Canvas) (r : Rect) (f : Canvas → Canvas) : Canvas :=
  let c1 := f { c with rect := r }
  { c1 with rect := c.rect, visuals := c.visuals }

/-- `Canvas::cut` for a body that cannot panic: carve a `width × height` rect
at the current top-left, advance the remaining rect along the cut direction,
shrink the remaining rect's width and height, run the body on the carved rect. -/
def Canvas.cut (c : Canvas) (width height : Int) (f : Canvas → Canvas) : Canvas :=
  let p := match c.visuals.dir with
    | CutDir.Horizontal =>
      (Rect.mk c.rect.x c.rect.y width height,
       { c.rect with x := c.rect.x + width })
    | CutDir.Vertical =>
      (Rect.mk c.rect.x c.rect.y width height,
       { c.rect with y := c.rect.y + height })
  let rem := { p.2 with width := p.2.width - width, height := p.2.height - height }
  Canvas.with_rect { c with rect := rem } p.1 f

/-- Overwrite the half-open index range `[s, t)` of the buffer with `color`
(the effect of Rust `buf[s..t].fill(color)` when the range is in bounds). -/
def setRange (buf : List Color) (s t : Nat) (color : Color) : List Color :=
  buf.take s ++ List.replicate (t - s) color ++ buf.drop t

/-- The row loop of `Canvas::fill`: for each row `y`, fill
`buf[(y*width+x) as usize .. (y*width+x+w) as usize]`; `none` models the Rust
slice-indexing panic when the range is reversed or past the end. -/
def fillRows (buf : List Color) (pixWidth rx rw : Int) (color : Color) :
    Int → Nat → Option (List Color)
  | _, 0 => some buf
  | y, n + 1 =>
    let s := usizeCast (y * pixWidth + rx)
    let t := usizeCast (y * pixWidth + rx + rw)
    if s ≤ t ∧ t ≤ buf.length then
      fillRows (setRange buf s t color) pixWidth rx rw color (y + 1) n
    else none

/-- `Canvas::fill`: fill every pixel of the current rect, row by row.
`none` models a panic. -/
def Canvas.fill (c : Canvas) (color : Color) : Option Canvas :=
  (fillRows c.pix.buf c.pix.width c.rect.x c.rect.width color
      c.rect.y c.rect.height.toNat).map
    (fun nb => { c with pix := { c.pix with buf := nb } })

/-- The innermost loop of `CharData::draw`: `for x in (x8*8 .. x8*8+8).rev()`,
testing `byte & 1` and shifting right each step, so with `rem` iterations left
the current x is `x8*8 + rem - 1`. `none` models the Rust division-by-zero
panic of `pos.0 / scale` when a set bit is reached with `scale == 0`. -/
def bitsDraw (cd : CharData) (pos : Int × Int) (color : Color) (scale : Int)
    (y : Int) (x8 : Nat) : Nat → Nat → PixBuf → Option PixBuf
  | _, 0, b => some b
  | byte, i + 1, b =>
    if byte &&& 1 = 1 then
      if scale = 0 then none
      else
        bitsDraw cd pos color scale y x8 (byte >>> 1) i
          (b.set_scaled_pixel (Int.tdiv pos.1 scale + ((x8 * 8 + i : Nat) : Int) + cd.xo)
            (Int.tdiv pos.2 scale + y - cd.height - cd.yo) scale color)
    else bitsDraw cd pos color scale y x8 (byte >>> 1) i b

/-- The per-row loop of `CharData::draw`: `for (x8, byte) in line.iter().enumerate()`. -/
def lineDraw (cd : CharData) (pos : Int × Int) (color : Color) (scale : Int)
    (y : Int) : List Nat → Nat → PixBuf → Option PixBuf
  | [], _, b => some b
  | byte :: rest, x8, b =>
    match bitsDraw cd pos color scale y x8 byte 8 b with
    | none => none
    | some b1 => lineDraw cd pos color scale y rest (x8 + 1) b1

/-- The row loop of `CharData::draw`: slice off `data_width` bytes per row.
`none` models the Rust slice panic when fewer than `data_width` bytes remain. -/
def drawRows (cd : CharData) (pos : Int × Int) (color : Color) (scale : Int)
    (dw : Nat) : Nat → List Nat → Int → PixBuf → Option PixBuf
  | 0, _, _, b => some b
  | n + 1, data, y, b =>
    if dw ≤ data.length then
      match lineDraw cd pos color scale y (data.take dw) 0 b with
      | none => none
      | some b1 => drawRows cd pos color scale dw n (data.drop dw) (y + 1) b1
    else none

/-- `CharData::draw`: rasterize one glyph.  `data_width` is
`(self.width as usize + 7) >> 3`; the row loop runs `height` times. -/
def CharData.draw (cd : CharData) (b : PixBuf) (pos : Int × Int) (color : Color)
    (scale : Int) : Option PixBuf :=
  drawRows cd pos color scale ((usizeCast cd.width + 7) >>> 3) cd.height.toNat cd.data 0 b

/-- `Font::len`: count layout cells with one-codepoint lookahead; a ligature
pair consumes two codepoints but counts one cell. -/
def Font.len (f : Font) : List Char → Int
  | [] => 0
  | [_] => 1
  | n :: snd :: rest =>
    if (f.ligatures (n, snd)).isSome then 1 + Font.len f rest
    else 1 + Font.len f (snd :: rest)

/-- The loop of `Font::draw`, carrying the running position and cell count.
`none` models a panic inside `CharData::draw`. -/
def drawText (f : Font) (color : Color) (scale : Int) :
    List Char → (Int × Int) → PixBuf → Int → Option (Int × PixBuf)
  | [], _, b, len => some (len, b)
  | [n], pos, b, len =>
    match f.chars n with
    | some cd =>
      match cd.draw b pos color scale with
      | none => none
      | some b1 => drawText f color scale [] (pos.1 + f.width * scale, pos.2) b1 (len + 1)
    | none => drawText f color scale [] (pos.1 + f.width * scale, pos.2) b (len + 1)
  | n :: snd :: rest, pos, b, len =>
    match f.ligatures (n, snd) with
    | some cd =>
      match cd.draw b pos color scale with
      | none => none
      | some b1 => drawText f color scale rest (pos.1 + f.width * scale, pos.2) b1 (len + 1)
    | none =>
      match f.chars n with
      | some cd =>
        match cd.draw b pos color scale with
        | none => none
        | some b1 =>
          drawText f color scale (snd :: rest) (pos.1 + f.width * scale, pos.2) b1 (len + 1)
      | none => drawText f color scale (snd :: rest) (pos.1 + f.width * scale, pos.2) b (len + 1)

/-- `Font::draw`: walk the string with one-codepoint lookahead, preferring a
ligature for `(current, next)`, falling back to the single glyph, drawing
nothing for unknown codepoints, always advancing by `width * scale`. -/
def Font.draw (f : Font) (b : PixBuf) (s : List Char) (pos : Int × Int)
    (color : Color) (scale : Int) : Option (Int × PixBuf) :=
  drawText f color scale s pos b 0

/-- Worker for `splitWs`, accumulating the current word in reverse. -/
def splitWsAux : List Char → List Char → List (List Char)
  | [], cur => if cur = [] then [] else [cur.reverse]
  | c :: rest, cur =>
    if c.isWhitespace then
      if cur = [] then splitWsAux rest [] else cur.reverse :: splitWsAux rest []
    else splitWsAux rest (c :: cur)

/-- Rust `str::split_whitespace`: the maximal non-empty runs of
non-whitespace characters, in order. -/
def splitWs (l : List Char) : List (List Char) := splitWsAux l []

/-- Rust `str::starts_with`. -/
def startsWithL (p l : List Char) : Bool := decide (l.take p.length = p)

/-- The line marker tokens of the BDF records. -/
def encTok : List Char := "ENCODING".toList

/-- The `BBX` marker. -/
def bbxTok : List Char := "BBX".toList

/-- The `BITMAP` marker. -/
def bitmapTok : List Char := "BITMAP".toList

/-- The `loop { let next = lines.next()?; if next.starts_with(..) .. }` scans of
`Font::parse_bdf`: find the first line starting with `t`, return it and the
remaining lines; `none` when the stream ends first. -/
def scanFor (t : List Char) : List (List Char) → Option (List Char × List (List Char))
  | [] => none
  | l :: ls => if startsWithL t l then some (l, ls) else scanFor t ls

/-- Decimal digit value. -/
def decDigitVal (c : Char) : Option Nat :=
  if '0' ≤ c ∧ c ≤ '9' then some (c.toNat - '0'.toNat) else none

/-- Hexadecimal digit value (both cases). -/
def hexDigitVal (c : Char) : Option Nat :=
  if '0' ≤ c ∧ c ≤ '9' then some (c.toNat - '0'.toNat)
  else if 'a' ≤ c ∧ c ≤ 'f' then some (c.toNat - 'a'.toNat + 10)
  else if 'A' ≤ c ∧ c ≤ 'F' then some (c.toNat - 'A'.toNat + 10)
  else none

/-- Accumulate digit values left to right; `none` on the first non-digit. -/
def digitsValAux (dv : Char → Option Nat) (base : Nat) : List Char → Nat → Option Nat
  | [], acc => some acc
  | c :: rest, acc =>
    match dv c with
    | some d => digitsValAux dv base rest (acc * base + d)
    | none => none

/-- Value of a non-empty all-digit string; `none` for an empty string or a
non-digit character. -/
def digitsVal (dv : Char → Option Nat) (base : Nat) : List Char → Option Nat
  | [] => none
  | l => digitsValAux dv base l 0

/-- Rust `u32::from_str_radix(s, 10)`: optional leading `+`, then decimal
digits; overflow past `u32::MAX` is an error. -/
def u32FromDec (s : List Char) : Option Nat :=
  let s1 := match s with
    | '+' :: r => r
    | r => r
  match digitsVal decDigitVal 10 s1 with
  | some v => if v < 2 ^ 32 then some v else none
  | none => none

/-- The non-negative case of `i32::from_str_radix(s, 10)`. -/
def i32FromDecPos (r : List Char) : Option Int :=
  match digitsVal decDigitVal 10 r with
  | some v => if v < 2 ^ 31 then some (v : Int) else none
  | none => none

/-- Rust `i32::from_str_radix(s, 10)`: optional sign, decimal digits,
`i32` range check. -/
def i32FromDec (s : List Char) : Option Int :=
  match s with
  | '-' :: r =>
    match digitsVal decDigitVal 10 r with
    | some v => if v ≤ 2 ^ 31 then some (-(v : Int)) else none
    | none => none
  | '+' :: r => i32FromDecPos r
  | r => i32FromDecPos r

/-- Rust `u8::from_str_radix(s, 16)`: optional leading `+`, hex digits,
`u8` range check. -/
def u8FromHex (s : List Char) : Option Nat :=
  let s1 := match s with
    | '+' :: r => r
    | r => r
  match digitsVal hexDigitVal 16 s1 with
  | some v => if v < 2 ^ 8 then some v else none
  | none => none

/-- Rust `char::from_u32`: `none` for surrogates and values above `0x10FFFF`. -/
def charFromU32 (n : Nat) : Option Char :=
  if h : n.isValidChar then some (Char.ofNatAux n h) else none

/-- The `Chunks` iterator of `font.rs` at the chunk size 2 used by
`chunks(&line, 2)`: length-2 pieces while at least 2 characters remain;
a trailing odd character is dropped. -/
def chunks2 : List Char → List (List Char)
  | a :: b :: rest => [a, b] :: chunks2 rest
  | _ => []

/-- Sequence a fallible map over a list, failing on the first failure
(the `for byte in bytes { data.push(byte.ok()?) }` loop shape). -/
def mapOption {α β : Type} (g : α → Option β) : List α → Option (List β)
  | [] => some []
  | a :: l =>
    match g a with
    | none => none
    | some b =>
      match mapOption g l with
      | none => none
      | some r => some (b :: r)

/-- Decode one bitmap line: split into 2-character chunks and hex-decode each;
the first undecodable chunk fails the whole line. -/
def decodeHexLine (l : List Char) : Option (List Nat) := mapOption u8FromHex (chunks2 l)

/-- The bitmap-row loop of `Font::parse_bdf`: read exactly `h` lines, decode
each, and append the decoded bytes; `none` if the stream ends first or a
chunk fails to decode. -/
def readRows : Nat → List (List Char) → Option (List Nat × List (List Char))
  | 0, ls => some ([], ls)
  | _ + 1, [] => none
  | n + 1, l :: ls =>
    match decodeHexLine l with
    | none => none
    | some row =>
      match readRows n ls with
      | none => none
      | some (rest, rem) => some (row ++ rest, rem)

/-- One glyph record of `Font::parse_bdf` after its `ENCODING` line: scan for
`BBX`, parse its four integer fields, scan for `BITMAP`, read `h` bitmap rows.
`none` is the record-level failure that aborts the whole parse. -/
def parseRecordAfterEnc (rest : List (List Char)) : Option (CharData × List (List Char)) := do
  let (bbxLine, r1) ← scanFor bbxTok rest
  let fields := (splitWs bbxLine).drop 1
  let wtok ← fields.head?
  let w ← i32FromDec wtok
  let htok ← (fields.drop 1).head?
  let h ← i32FromDec htok
  let xtok ← (fields.drop 2).head?
  let xo ← i32FromDec xtok
  let ytok ← (fields.drop 3).head?
  let yo ← i32FromDec ytok
  let (_, r2) ← scanFor bitmapTok r1
  let (data, r3) ← readRows h.toNat r2
  some (CharData.mk w h xo yo data, r3)

/-- Outcome of `Font::parse_bdf`: `ok` is `Some(font)`, `failed` is `None`
(a `?` fired), `panicked` models a Rust panic. -/
inductive ParseResult where
  | ok (font : Font)
  | failed
  | panicked

/-- The record loop of `Font::parse_bdf`.  `fuel` bounds the number of records
processed; each iteration consumes at least the `ENCODING` line, so the fuel
supplied by `Font.parse_bdf` (`lines.length + 1`) can never run out and the
fuel-zero branch is unreachable.  End of stream while scanning for `ENCODING`
returns the font built so far; a missing codepoint field after `ENCODING`
models the `.unwrap()` panic. -/
def parseBdfLoop : Nat → Font → List (List Char) → ParseResult
  | 0, _, _ => ParseResult.failed
  | fuel + 1, font, lines =>
    match scanFor encTok lines with
    | none => ParseResult.ok font
    | some (encLine, rest) =>
      match ((splitWs encLine).drop 1).head? with
      | none => ParseResult.panicked
      | some tok =>
        match u32FromDec tok with
        | none => ParseResult.failed
        | some n =>
          match charFromU32 n with
          | none => ParseResult.failed
          | some ch =>
            match parseRecordAfterEnc rest with
            | none => ParseResult.failed
            | some (cd, rem) => parseBdfLoop fuel (font.insertChar ch cd) rem

/-- `Font::parse_bdf` with the input stream already split into lines. -/
def Font.parse_bdf (lines : List (List Char)) (width height : Int) : ParseResult :=
  parseBdfLoop (lines.length + 1)
    (Font.mk width height (fun _ => none) (fun _ => none)) lines

/-- `Canvas::cut` for a body that both threads external state `σ` (the
`&mut T` captured by the `Tabs::draw` closure) and may panic; geometry and
the `(Rect, Visuals)` save/restore are exactly those of `Canvas::cut`. -/
def Canvas.cutS {σ : Type} (c : Canvas) (width height : Int)
    (f : Canvas → Option (σ × Canvas)) : Option (σ × Canvas) :=
  let p := match c.visuals.dir with
    | CutDir.Horizontal =>
      (Rect.mk c.rect.x c.rect.y width height,
       { c.rect with x := c.rect.x + width })
    | CutDir.Vertical =>
      (Rect.mk c.rect.x c.rect.y width height,
       { c.rect with y := c.rect.y + height })
  let rem := { p.2 with width := p.2.width - width, height := p.2.height - height }
  match f { c with rect := p.1 } with
  | none => none
  | some (s, c1) => some (s, { c1 with rect := rem, visuals := c.visuals })

/-- The per-tab closure body of `Tabs::draw`: possibly reassign the selection,
then render the tab, highlighted (fill + inverted text color) when it is the
selection and no other tab is being clicked.  `render` stands for the dynamic
`tab.draw(canvas)` call. -/
def tabBody {T : Type} [DecidableEq T] (render : T → Canvas → Option Canvas)
    (selecting : Bool) (tab sel : T) (c : Canvas) : Option (T × Canvas) :=
  let sel1 := if c.mouse_left then tab else sel
  let rendered : Option Canvas :=
    if tab = sel1 ∧ (!selecting || c.mouse_left) = true then do
      let cf ← c.fill c.visuals.color
      let cf2 := { cf with visuals := { cf.visuals with color := invert cf.visuals.color } }
      let cr ← render tab cf2
      some { cr with visuals := { cr.visuals with color := invert cr.visuals.color } }
    else render tab c
  match rendered with
  | none => none
  | some c2 => some (sel1, c2)

/-- The `for tab in tabs` loop of `Tabs::draw`. -/
def tabsLoop {T : Type} [DecidableEq T] (render : T → Canvas → Option Canvas)
    (width height : Int) (selecting : Bool) :
    List T → T → Canvas → Option (T × Canvas)
  | [], sel, c => some (sel, c)
  | tab :: rest, sel, c =>
    match c.cutS width height (tabBody render selecting tab sel) with
    | none => none
    | some (sel1, c1) => tabsLoop render width height selecting rest sel1 c1

/-- `<Tabs as Widget>::draw`: split the strip into `tabs.length` equal
sub-rects along the cut direction and run the per-tab body over each.
`T::iter()` is passed as the explicit list `tabs`, and the dynamic
`tab.draw` call as `render`.  An empty tab list divides by zero (`none`). -/
def tabsDraw {T : Type} [DecidableEq T] (tabs : List T)
    (render : T → Canvas → Option Canvas) (sel : T) (c : Canvas) :
    Option (T × Canvas) :=
  if tabs.length = 0 then none
  else
    let wh := match c.visuals.dir with
      | CutDir.Horizontal => (Int.tdiv c.rect.width tabs.length, c.rect.height)
      | CutDir.Vertical => (c.rect.width, Int.tdiv c.rect.height tabs.length)
    tabsLoop render wh.1 wh.2 c.mouse_left tabs sel c

/-! ## Concrete fixtures used by witnesses and counterexamples -/

/-- A font with empty glyph maps (cell size 6 × 13, as in `main.rs`). -/
def font0 : Font := Font.mk 6 13 (fun _ => none) (fun _ => none)

/-- Opaque red. -/
def red : Color := ⟨⟨255, by omega⟩, ⟨0, by omega⟩, ⟨0, by omega⟩, ⟨255, by omega⟩⟩

/-- Transparent black. -/
def black : Color := ⟨⟨0, by omega⟩, ⟨0, by omega⟩, ⟨0, by omega⟩, ⟨0, by omega⟩⟩

/-- A cleared 4 × 4 pixel buffer. -/
def buf44 : PixBuf := PixBuf.mk (List.replicate 16 black) 4 4

/-- Glyph lookup on a successful parse result (`none` on failure). -/
def resultChar (r : ParseResult) (c : Char) : Option CharData :=
  match r with
  | ParseResult.ok f => f.chars c
  | _ => none

/-- A canvas over the full 4 × 4 buffer, horizontal cut direction, left button
held, cursor at `(2, 0)`. -/
def canvas0 : Canvas :=
  Canvas.mk buf44 (Rect.mk 0 0 4 4) (Visuals.mk font0 2 CutDir.Horizontal red)
    (Events.mk true false false (some (2, 0)))

/-- A canvas whose current rect has width `-1` (as can arise from the
intermediate rect arithmetic of `cut`). -/
def canvasNegW : Canvas :=
  Canvas.mk buf44 (Rect.mk 1 0 (-1) 1) (Visuals.mk font0 2 CutDir.Horizontal red)
    (Events.mk false false false none)

/-- A canvas whose current rect has height `0`. -/
def canvasH0 : Canvas :=
  Canvas.mk buf44 (Rect.mk 0 0 4 0) (Visuals.mk font0 2 CutDir.Horizontal red)
    (Events.mk false false false none)

/-- A font with one ligature `('a', 'b')` (empty bitmap) and no single glyphs. -/
def fontL : Font := Font.mk 6 13 (fun _ => none)
  (fun p => if p = ('a', 'b') then some (CharData.mk 0 0 0 0 []) else none)

/-! ## Claim C10 -/

/-- Claim C10: color inversion is an involution: `invert (invert c) = c` for
every RGBA8 color, where `invert` maps each channel `x` to `255 - x`. -/
theorem c10_invert_involution : ∀ c : Color, invert (invert c) = c := by
  intro c
  obtain ⟨⟨r, hr⟩, ⟨g, hg⟩, ⟨b, hb⟩, ⟨a, ha⟩⟩ := c
  simp only [invert, Color.mk.injEq, Fin.mk.injEq]
  omega

/-! ## Claim C4 -/

/-- Claim C4, counterexample: `cut(w, h, body)` does **not** leave the parent
rect identical to its value before the call — after `canvas0.cut 1 1 id` the
rect is `(1, 0, 3, 3)`, not the original `(0, 0, 4, 4)`: `cut` deliberately
advances and shrinks the remaining rect. -/
theorem c4_counterexample :
    ¬ (Canvas.cut canvas0 1 1 (fun x => x)).rect = canvas0.rect := by decide

/-- Claim C4, amended: `with_rect` restores the exact prior `(Rect, Visuals)`
pair, and `cut` restores the prior visuals and sets the rect to the remaining
rect computed *before* the body runs, so no rect or visuals change made by the
body escapes its dynamic extent (`cut`'s final rect is independent of the
body); the parent rect is *not* identical to its pre-`cut` value, it is the
pre-call rect advanced and shrunk by the carved amounts. -/
theorem c4_push_pop :
    (∀ (c : Canvas) (r : Rect) (f : Canvas → Canvas),
        (c.with_rect r f).rect = c.rect ∧ (c.with_rect r f).visuals = c.visuals)
    ∧ (∀ (c : Canvas) (w h : Int) (f : Canvas → Canvas),
        (c.cut w h f).visuals = c.visuals ∧
        (c.cut w h f).rect = (c.cut w h (fun x => x)).rect) :=
  ⟨fun _ _ _ => ⟨rfl, rfl⟩, fun _ _ _ _ => ⟨rfl, rfl⟩⟩

/-! ## Claim C7 -/

/-- Claim C7: `cut(width, height, body)` runs the body on the sub-rectangle at
the current rect's top-left corner of the given size (the body's effect on the
pixel buffer and events is that of running it on exactly that canvas), and the
remaining rect advances `x` by `width` under `Horizontal`, advances `y` by
`height` under `Vertical`, and shrinks both `width` and `height` by the carved
amounts in both directions. -/
theorem c7_cut_geometry :
    ∀ (c : Canvas) (w h : Int) (f : Canvas → Canvas),
      ((c.cut w h f).rect = match c.visuals.dir with
        | CutDir.Horizontal =>
          Rect.mk (c.rect.x + w) c.rect.y (c.rect.width - w) (c.rect.height - h)
        | CutDir.Vertical =>
          Rect.mk c.rect.x (c.rect.y + h) (c.rect.width - w) (c.rect.height - h))
      ∧ (c.cut w h f).pix = (f { c with rect := Rect.mk c.rect.x c.rect.y w h }).pix
      ∧ (c.cut w h f).events = (f { c with rect := Rect.mk c.rect.x c.rect.y w h }).events := by
  intro c w h f
  obtain ⟨pix, rect, vis, ev⟩ := c
  cases hd : vis.dir <;>
    simp [Canvas.cut, Canvas.with_rect, hd]

/-! ## Claim C1 -/

/-- Claim C1, counterexample: a degenerate rect of width `-1` makes
`Canvas::fill` compute the row range `start = 1, end = 0` and index
`buf[1..0]`, which panics in Rust (`none` in the model) instead of being a
no-op: `fill` does not tolerate negative widths. -/
theorem c1_counterexample : Canvas.fill canvasNegW red = none := rfl

/-- Claim C1, amended: `fill` writes no pixel and cannot fault when the rect's
height is non-positive (the row loop is empty), and `Rect::contains` returns
`false` for every point whenever width or height is non-positive (and, being
plain integer comparisons, cannot crash); but `fill` is *not* a no-op for
every degenerate or out-of-bounds rect — a negative width makes its row slice
`buf[start..end]` reversed and panic, as `c1_counterexample` shows. -/
theorem c1_degenerate :
    (∀ (c : Canvas) (color : Color), c.rect.height ≤ 0 → c.fill color = some c)
    ∧ (∀ (r : Rect) (x y : Int), r.width ≤ 0 ∨ r.height ≤ 0 →
        r.contains x y = false) := by
  constructor
  · intro c color h
    have h0 : c.rect.height.toNat = 0 := Int.toNat_of_nonpos h
    simp [Canvas.fill, h0, fillRows]
  · intro r x y h
    rw [Bool.eq_false_iff]
    intro hc
    simp only [Rect.contains, Bool.and_eq_true, decide_eq_true_eq, ge_iff_le] at hc
    obtain ⟨⟨⟨h1, h2⟩, h3⟩, h4⟩ := hc
    rcases h with h | h <;> omega

/-- Claim C1, witness for the amended theorem at concrete inputs: filling a
rect of height `0` is a no-op, and a rect of width `-1` contains no point. -/
theorem c1_witness :
    Canvas.fill canvasH0 red = some canvasH0 ∧
      Rect.contains (Rect.mk 0 0 (-1) 5) 0 0 = false :=
  ⟨c1_degenerate.1 canvasH0 red (by decide),
   c1_degenerate.2 (Rect.mk 0 0 (-1) 5) 0 0 (Or.inl (by decide))⟩

/-! ## Claim C9 -/

/-- Claim C9 (the code contradicts it): an `ENCODING` line with no second
whitespace-separated field makes `Font::parse_bdf` call `.unwrap()` on `None`
and panic instead of returning a value; this theorem evaluates the parser at
that failing input. -/
theorem c9_encoding_unwrap :
    Font.parse_bdf ["ENCODING".toList] 6 13 = ParseResult.panicked := rfl

/-! ## Claim C2 -/

/-- The running cell count of `Font::draw`: whenever the loop returns, the
returned count is the starting count plus `Font::len` of the remaining text. -/
theorem drawText_len (f : Font) (color : Color) (scale : Int)
    (s : List Char) (pos : Int × Int) (b : PixBuf) (len : Int) :
    ∀ (k : Int) (b1 : PixBuf),
      drawText f color scale s pos b len = some (k, b1) → k = len + f.len s := by
  induction s, pos, b, len using drawText.induct f color scale with
  | case1 pos b len =>
    intro k b1 h
    simp only [drawText, Option.some.injEq, Prod.mk.injEq] at h
    simp [Font.len, ← h.1]
  | case2 n pos b len cd hc hd =>
    intro k b1 h
    simp [drawText, hc, hd] at h
  | case3 n pos b len cd hc b2 hd ih =>
    intro k b1 h
    simp only [drawText, hc, hd] at h
    have := ih k b1 h
    simp only [Font.len] at this ⊢
    omega
  | case4 n pos b len hc ih =>
    intro k b1 h
    simp only [drawText, hc] at h
    have := ih k b1 h
    simp only [Font.len] at this ⊢
    omega
  | case5 n snd rest pos b len cd hl hd =>
    intro k b1 h
    simp [drawText, hl, hd] at h
  | case6 n snd rest pos b len cd hl b2 hd ih =>
    intro k b1 h
    simp only [drawText, hl, hd] at h
    have := ih k b1 h
    simp only [Font.len, hl, Option.isSome_some, if_true] at this ⊢
    omega
  | case7 n snd rest pos b len hl cd hc hd =>
    intro k b1 h
    simp [drawText, hl, hc, hd] at h
  | case8 n snd rest pos b len hl cd hc b2 hd ih =>
    intro k b1 h
    simp only [drawText, hl, hc, hd] at h
    have := ih k b1 h
    simp only [Font.len, hl, Option.isSome_none, Bool.false_eq_true, if_false] at this ⊢
    omega
  | case9 n snd rest pos b len hl hc ih =>
    intro k b1 h
    simp only [drawText, hl, hc] at h
    have := ih k b1 h
    simp only [Font.len, hl, Option.isSome_none, Bool.false_eq_true, if_false] at this ⊢
    omega

/-- Claim C2: whenever `Font::draw` returns for a string, its returned cell
count equals `Font::len` of the same string (measuring agrees with shaping
without rasterizing), and a codepoint pair that is a key of the ligature map
is counted as exactly one cell. -/
theorem c2_len_draw_agree :
    (∀ (f : Font) (b : PixBuf) (s : List Char) (pos : Int × Int) (color : Color)
        (scale k : Int) (b1 : PixBuf),
        f.draw b s pos color scale = some (k, b1) → k = f.len s)
    ∧ (∀ (f : Font) (a b : Char) (cd : CharData),
        f.ligatures (a, b) = some cd → f.len [a, b] = 1) := by
  constructor
  · intro f b s pos color scale k b1 h
    have := drawText_len f color scale s pos b 0 k b1 h
    omega
  · intro f a b cd h
    simp [Font.len, h]

/-- Claim C2, witness: the ligature font `fontL` draws the two-codepoint
string `"ab"` as exactly one cell, and measures it as one cell. -/
theorem c2_witness :
    (1 : Int) = fontL.len ("ab".toList) ∧ fontL.len ['a', 'b'] = 1 :=
  ⟨c2_len_draw_agree.1 fontL buf44 ("ab".toList) (0, 0) red 1 1 buf44 (by decide),
   c2_len_draw_agree.2 fontL 'a' 'b' (CharData.mk 0 0 0 0 []) (by decide)⟩

/-! ## Claim C3 -/

/-- If no line starts with the scanned token, the scan exhausts the stream. -/
theorem scanFor_eq_none (t : List Char) :
    ∀ (ls : List (List Char)), (∀ l ∈ ls, startsWithL t l = false) → scanFor t ls = none := by
  intro ls
  induction ls with
  | nil => intro _; rfl
  | cons l ls ih =>
    intro h
    have hl := h l (by simp)
    simp only [scanFor, hl, Bool.false_eq_true, if_false]
    exact ih (fun x hx => h x (by simp [hx]))

/-- Claim C3: the parse is fail-fast.  A record whose codepoint field fails to
parse, whose `BBX` integer field fails to parse, or whose bitmap row fails
hex-decoding makes the whole parse fail no matter what follows; a stream that
ends mid-record (after `ENCODING`, before the rest of the record) fails; and
end of stream while scanning for the next `ENCODING` line returns the font
built so far. -/
theorem c3_fail_fast :
    (∀ (fuel : Nat) (f : Font) (rest : List (List Char)),
        parseBdfLoop (fuel + 1) f ("ENCODING xx".toList :: rest) = ParseResult.failed)
    ∧ (∀ (fuel : Nat) (f : Font) (rest : List (List Char)),
        parseBdfLoop (fuel + 1) f
          ("ENCODING 65".toList :: "BBX q 2 0 0".toList :: rest) = ParseResult.failed)
    ∧ (∀ (fuel : Nat) (f : Font) (rest : List (List Char)),
        parseBdfLoop (fuel + 1) f
          ("ENCODING 65".toList :: "BBX 8 2 0 0".toList :: "BITMAP".toList
            :: "ZZ".toList :: rest) = ParseResult.failed)
    ∧ (∀ (fuel : Nat) (f : Font),
        parseBdfLoop (fuel + 1) f ["ENCODING 65".toList] = ParseResult.failed)
    ∧ (∀ (fuel : Nat) (f : Font) (lines : List (List Char)),
        (∀ l ∈ lines, startsWithL encTok l = false) →
          parseBdfLoop (fuel + 1) f lines = ParseResult.ok f) := by
  refine ⟨fun _ _ _ => rfl, fun _ _ _ => rfl, fun _ _ _ => rfl, fun _ _ => rfl, ?_⟩
  intro fuel f lines h
  simp only [parseBdfLoop, scanFor_eq_none encTok lines h]

/-- Claim C3, witness: end of stream while scanning for `ENCODING` (a stream
with one junk line) yields the font built so far; the fail-fast conjuncts are
applied at fuel 0 with an empty remainder. -/
theorem c3_witness :
    parseBdfLoop 1 font0 ["junk".toList] = ParseResult.ok font0 ∧
      parseBdfLoop 1 font0 ["ENCODING xx".toList] = ParseResult.failed :=
  ⟨c3_fail_fast.2.2.2.2 0 font0 ["junk".toList] (by decide),
   c3_fail_fast.1 0 font0 []⟩

/-! ## Claim C5 -/

/-- A successful `mapOption` preserves list length. -/
theorem mapOption_length {α β : Type} (g : α → Option β) :
    ∀ (l : List α) (r : List β), mapOption g l = some r → r.length = l.length := by
  intro l
  induction l with
  | nil =>
    intro r h
    simp only [mapOption, Option.some.injEq] at h
    simp [← h]
  | cons a l ih =>
    intro r h
    simp only [mapOption] at h
    cases hg : g a with
    | none => simp [hg] at h
    | some b =>
      simp only [hg] at h
      cases hm : mapOption g l with
      | none => simp [hm] at h
      | some r2 =>
        simp only [hm, Option.some.injEq] at h
        simp [← h, ih r2 hm]

/-- The number of 2-character chunks is the line length divided by 2
(a trailing odd character is ignored). -/
theorem chunks2_length : ∀ (l : List Char), (chunks2 l).length = l.length / 2 := by
  intro l
  induction l using chunks2.induct with
  | case1 a b rest ih => simp only [chunks2, List.length_cons, ih]; omega
  | case2 l h1 =>
    cases l with
    | nil => simp [chunks2]
    | cons a t =>
      cases t with
      | nil => simp [chunks2]
      | cons b t2 => exact absurd rfl (h1 a b t2)

/-- Claim C5, amended: an accepted record reads exactly `h` lines after the
`BITMAP` marker (the remaining stream is the input dropped by `h`), decodes
each of them two hexadecimal characters per byte, and stores the concatenation
of the decoded rows; each decoded row has `floor(len/2)` bytes, the parser
does **not** check this against `ceil(w/8)`. -/
theorem c5_rows :
    (∀ (h : Nat) (ls : List (List Char)) (out : List Nat) (rem : List (List Char)),
        readRows h ls = some (out, rem) →
          rem = ls.drop h ∧ h ≤ ls.length ∧
          ∃ rows : List (List Nat),
            mapOption decodeHexLine (ls.take h) = some rows ∧ out = rows.flatten)
    ∧ (∀ (l : List Char) (row : List Nat),
        decodeHexLine l = some row → row.length = l.length / 2) := by
  constructor
  · intro h
    induction h with
    | zero =>
      intro ls out rem hr
      simp only [readRows, Option.some.injEq, Prod.mk.injEq] at hr
      refine ⟨hr.2.symm, by omega, [], by simp [mapOption], by simp [← hr.1]⟩
    | succ n ih =>
      intro ls out rem hr
      cases ls with
      | nil => simp [readRows] at hr
      | cons l ls =>
        simp only [readRows] at hr
        cases hd : decodeHexLine l with
        | none => simp [hd] at hr
        | some row =>
          simp only [hd] at hr
          cases hrr : readRows n ls with
          | none => simp [hrr] at hr
          | some p =>
            obtain ⟨rest, rem0⟩ := p
            simp only [hrr, Option.some.injEq, Prod.mk.injEq] at hr
            obtain ⟨hout, hrem⟩ := hr
            obtain ⟨h1, h2, rows0, h3, h4⟩ := ih ls rest rem0 hrr
            refine ⟨by simp [← hrem, h1], by simp; omega, row :: rows0, ?_, ?_⟩
            · rw [List.take_succ_cons]
              simp only [mapOption, hd, h3]
            · simp [← hout, h4]
  · intro l row h
    have h1 := mapOption_length u8FromHex (chunks2 l) row h
    rw [h1, chunks2_length]

/-- Claim C5, counterexample to the row-length clause: the parser accepts a
record `BBX 8 1 0 0` whose single bitmap row `"FFFF"` decodes to **2** bytes,
although `ceil(8/8) = 1`; no row-length check against the bounding box exists. -/
theorem c5_counterexample :
    resultChar (Font.parse_bdf
        ["ENCODING 65".toList, "BBX 8 1 0 0".toList, "BITMAP".toList, "FFFF".toList] 6 13) 'A'
      = some (CharData.mk 8 1 0 0 [255, 255]) ∧
    ¬ (CharData.mk 8 1 0 0 [255, 255]).data.length = ((usizeCast 8 + 7) >>> 3) := by
  constructor
  · decide
  · decide

/-- Claim C5, witness for the amended theorem: reading one row `"FF"` consumes
exactly one line, decodes to `[255]`, and that row has `2 / 2 = 1` byte. -/
theorem c5_witness :
    (([] : List (List Char)) = ["FF".toList].drop 1 ∧ 1 ≤ ["FF".toList].length ∧
      ∃ rows : List (List Nat),
        mapOption decodeHexLine (["FF".toList].take 1) = some rows ∧ [255] = rows.flatten) ∧
    [(255 : Nat)].length = ("FF".toList).length / 2 :=
  ⟨c5_rows.1 1 ["FF".toList] [255] [] (by decide),
   c5_rows.2 ("FF".toList) [255] (by decide)⟩

/-! ## Claim C6 -/

/-- Paint a list of destination pixels with one color, in order. -/
def paintPix (b : PixBuf) (coords : List (Int × Int)) (color : Color) : PixBuf :=
  coords.foldl (fun bb p => bb.set_pixel p.1 p.2 color) b

/-- Paint a list of logical pixels with one color at one scale, in order. -/
def paintScaled (b : PixBuf) (coords : List (Int × Int)) (scale : Int) (color : Color) : PixBuf :=
  coords.foldl (fun bb p => bb.set_scaled_pixel p.1 p.2 scale color) b

/-- The destination-pixel block of one logical pixel, row by row. -/
def blockCoords (x y scale : Int) : List (Int × Int) :=
  (rangeI (y * scale) (y * scale + scale)).flatMap
    (fun yy => (rangeI (x * scale) (x * scale + scale)).map (fun xx => (xx, yy)))

/-- `data_width` of `CharData::draw`: `(self.width as usize + 7) >> 3`. -/
def dataWidthU (cd : CharData) : Nat := (usizeCast cd.width + 7) >>> 3

/-- The claim's position formula: bit column `col` of bitmap row `y` is drawn
at `(origin.x/scale + col + xOffset, origin.y/scale + y - height - yOffset)`. -/
def pixelCoord (cd : CharData) (pos : Int × Int) (scale : Int) (y col : Int) : Int × Int :=
  (Int.tdiv pos.1 scale + col + cd.xo, Int.tdiv pos.2 scale + y - cd.height - cd.yo)

/-- Specification side (following the claim's wording): the logical pixels of
one row byte, consuming its bits high-to-low so that bit 7 (value 128) is the
leftmost pixel `x8*8 + 0` of the byte's 8-pixel group. -/
def specByte (cd : CharData) (pos : Int × Int) (scale : Int) (y : Int) (x8 byte : Nat) :
    List (Int × Int) :=
  (List.range 8).filterMap (fun j =>
    if byte.testBit (7 - j) then
      some (pixelCoord cd pos scale y ((x8 * 8 + j : Nat) : Int))
    else none)

/-- Specification side: the logical pixels of one bitmap row, reading its
bytes left to right. -/
def specRow (cd : CharData) (pos : Int × Int) (scale : Int) (y : Int) :
    List Nat → Nat → List (Int × Int)
  | [], _ => []
  | byte :: rest, x8 =>
    specByte cd pos scale y x8 byte ++ specRow cd pos scale y rest (x8 + 1)

/-- Specification side: the logical pixels of rows `yn, yn+1, ...` (`n` rows),
row `y` being bytes `y*dataWidth .. y*dataWidth + dataWidth` of the bitmap. -/
def specRows (cd : CharData) (pos : Int × Int) (scale : Int) : Nat → Nat → List (Int × Int)
  | 0, _ => []
  | n + 1, yn =>
    specRow cd pos scale (yn : Int)
        ((cd.data.drop (yn * dataWidthU cd)).take (dataWidthU cd)) 0
      ++ specRows cd pos scale n (yn + 1)

/-- Specification side, whole glyph: for each bitmap row `y` in
`[0, height)`, each byte left to right, each bit high-to-low, the logical
pixel of every set bit at the claim's position formula. -/
def specRasterPixels (cd : CharData) (pos : Int × Int) (scale : Int) : List (Int × Int) :=
  specRows cd pos scale cd.height.toNat 0

/-- The source-order pixel list of the innermost loop of `CharData::draw`
(x descending while the shifted byte's low bits are tested). -/
def bitsPix (cd : CharData) (pos : Int × Int) (scale : Int) (y : Int) (x8 : Nat) :
    Nat → Nat → List (Int × Int)
  | _, 0 => []
  | byte, i + 1 =>
    (if byte &&& 1 = 1 then [pixelCoord cd pos scale y ((x8 * 8 + i : Nat) : Int)] else [])
      ++ bitsPix cd pos scale y x8 (byte >>> 1) i

/-- The bit loop of the rasterizer is the paint of its source-order pixel
list, whenever `scale` is non-zero (no division-by-zero panic). -/
theorem bitsDraw_paint (cd : CharData) (pos : Int × Int) (color : Color) (scale : Int)
    (y : Int) (x8 : Nat) (hs : scale ≠ 0) :
    ∀ (i byte : Nat) (b : PixBuf),
      bitsDraw cd pos color scale y x8 byte i b
        = some (paintScaled b (bitsPix cd pos scale y x8 byte i) scale color) := by
  intro i
  induction i with
  | zero => intro byte b; rfl
  | succ i ih =>
    intro byte b
    by_cases hbit : byte &&& 1 = 1
    · simp only [bitsDraw, bitsPix, hbit, if_true, if_pos, hs, if_false, ite_false]
      rw [ih]
      simp [paintScaled, pixelCoord]
    · simp only [bitsDraw, bitsPix, hbit, if_false, ite_false]
      rw [ih]
      simp [paintScaled]

/-- The source-order pixel list, re-expressed over the original byte's bits:
with `i` iterations left, bit `k` of the byte paints column `i - 1 - k`. -/
theorem bitsPix_filterMap (cd : CharData) (pos : Int × Int) (scale : Int)
    (y : Int) (x8 : Nat) :
    ∀ (i byte : Nat),
      bitsPix cd pos scale y x8 byte i
        = (List.range i).filterMap (fun k =>
            if byte.testBit k then
              some (pixelCoord cd pos scale y ((x8 * 8 + (i - 1 - k) : Nat) : Int))
            else none) := by
  intro i
  induction i with
  | zero => intro byte; rfl
  | succ i ih =>
    intro byte
    have hbit0 : byte.testBit 0 = decide (byte &&& 1 = 1) := by
      rw [Nat.and_one_is_mod]
      simp [Nat.testBit_to_div_mod]
    rw [List.range_succ_eq_map, List.filterMap_cons, List.filterMap_map]
    have hrest : List.filterMap
        ((fun k => if byte.testBit k = true then
            some (pixelCoord cd pos scale y ((x8 * 8 + (i + 1 - 1 - k) : Nat) : Int))
          else none) ∘ Nat.succ) (List.range i)
        = bitsPix cd pos scale y x8 (byte >>> 1) i := by
      rw [ih (byte >>> 1)]
      apply List.filterMap_congr
      intro k _
      have ht : byte.testBit (k + 1) = (byte >>> 1).testBit k := by
        rw [Nat.testBit_succ, Nat.shiftRight_one]
      have ha : x8 * 8 + (i + 1 - 1 - (k + 1)) = x8 * 8 + (i - 1 - k) := by omega
      simp only [Function.comp_apply, ht, ha]
    rw [hrest]
    by_cases hb : byte &&& 1 = 1
    · have hb2 : byte.testBit 0 = true := by rw [hbit0]; exact decide_eq_true hb
      simp only [bitsPix, if_pos hb, hb2, ite_true]
      rfl
    · have hb2 : byte.testBit 0 = false := by rw [hbit0]; exact decide_eq_false hb
      simp only [bitsPix, if_neg hb, hb2]
      rfl

/-- Membership in an integer range list. -/
theorem mem_rangeI (a b v : Int) : v ∈ rangeI a b ↔ a ≤ v ∧ v < b := by
  unfold rangeI
  rw [List.mem_map]
  constructor
  · rintro ⟨i, hi, rfl⟩
    rw [List.mem_range] at hi
    omega
  · rintro ⟨h1, h2⟩
    refine ⟨(v - a).toNat, ?_, ?_⟩
    · rw [List.mem_range]
      omega
    · omega

/-- Painting distributes over list append. -/
theorem paintPix_append (b : PixBuf) (l1 l2 : List (Int × Int)) (c : Color) :
    paintPix b (l1 ++ l2) c = paintPix (paintPix b l1 c) l2 c :=
  List.foldl_append _ _ _ _

/-- Scaled painting distributes over list append. -/
theorem paintScaled_append (b : PixBuf) (l1 l2 : List (Int × Int)) (s : Int) (c : Color) :
    paintScaled b (l1 ++ l2) s c = paintScaled (paintScaled b l1 s c) l2 s c :=
  List.foldl_append _ _ _ _

/-- `set_scaled_pixel` is the paint of its destination block, row by row. -/
theorem set_scaled_eq_paintPix (b : PixBuf) (x y s : Int) (c : Color) :
    b.set_scaled_pixel x y s c = paintPix b (blockCoords x y s) c := by
  unfold PixBuf.set_scaled_pixel blockCoords
  generalize rangeI (y * s) (y * s + s) = ys
  induction ys generalizing b with
  | nil => rfl
  | cons yy ys ih =>
    rw [List.flatMap_cons, paintPix_append, List.foldl_cons]
    rw [ih]
    congr 1
    unfold paintPix
    rw [List.foldl_map]

/-- Writing the same color twice with `set_pixel` commutes. -/
theorem set_pixel_comm (b : PixBuf) (x1 y1 x2 y2 : Int) (c : Color) :
    (b.set_pixel x1 y1 c).set_pixel x2 y2 c = (b.set_pixel x2 y2 c).set_pixel x1 y1 c := by
  obtain ⟨buf, w, h⟩ := b
  have e : ∀ (bf : List Color) (x y : Int), PixBuf.set_pixel ⟨bf, w, h⟩ x y c
      = ⟨if 0 ≤ x ∧ 0 ≤ y ∧ x < w ∧ y < h then bf.set (x + y * w).toNat c else bf, w, h⟩ := by
    intro bf x y
    unfold PixBuf.set_pixel
    split
    · rfl
    · rfl
  rw [e, e, e, e]
  simp only [PixBuf.mk.injEq, and_true]
  by_cases h1 : 0 ≤ x1 ∧ 0 ≤ y1 ∧ x1 < w ∧ y1 < h <;>
    by_cases h2 : 0 ≤ x2 ∧ 0 ≤ y2 ∧ x2 < w ∧ y2 < h <;>
    simp only [h1, h2, true_and, and_true, and_self, if_true, if_false, ite_true, ite_false,
      iff_false, false_and, and_false]
  by_cases heq : (x1 + y1 * w).toNat = (x2 + y2 * w).toNat
  · rw [heq]
  · exact List.set_comm _ _ _ heq

/-- Painting the same color at the same scale commutes between logical pixels. -/
theorem set_scaled_comm (b : PixBuf) (p q : Int × Int) (s : Int) (c : Color) :
    (b.set_scaled_pixel p.1 p.2 s c).set_scaled_pixel q.1 q.2 s c
      = (b.set_scaled_pixel q.1 q.2 s c).set_scaled_pixel p.1 p.2 s c := by
  rw [set_scaled_eq_paintPix, set_scaled_eq_paintPix, set_scaled_eq_paintPix,
    set_scaled_eq_paintPix, ← paintPix_append, ← paintPix_append]
  exact List.Perm.foldl_eq' (List.perm_append_comm)
    (fun u _ v _ z => set_pixel_comm z u.1 u.2 v.1 v.2 c) b

/-- Scaled painting is invariant under permutation of the pixel list. -/
theorem paintScaled_perm (b : PixBuf) (l1 l2 : List (Int × Int)) (s : Int) (c : Color)
    (hp : l1.Perm l2) : paintScaled b l1 s c = paintScaled b l2 s c :=
  List.Perm.foldl_eq' hp (fun u _ v _ z => set_scaled_comm z u v s c) b

/-- `filterMap` commutes with `reverse`. -/
theorem filterMap_rev {α β : Type} (f : α → Option β) :
    ∀ l : List α, (l.filterMap f).reverse = l.reverse.filterMap f := by
  intro l
  induction l with
  | nil => rfl
  | cons a l ih =>
    rw [List.reverse_cons, List.filterMap_append, List.filterMap_cons]
    cases h : f a <;> simp [h, ← ih]

/-- The claim-side per-byte pixel list is the source-order list reversed. -/
theorem specByte_eq_rev (cd : CharData) (pos : Int × Int) (scale : Int) (y : Int)
    (x8 byte : Nat) :
    specByte cd pos scale y x8 byte = (bitsPix cd pos scale y x8 byte 8).reverse := by
  rw [bitsPix_filterMap, filterMap_rev]
  have h8 : (List.range 8).reverse = (List.range 8).map (fun j => 7 - j) := by decide
  rw [h8, List.filterMap_map]
  unfold specByte
  apply List.filterMap_congr
  intro j hj
  have hj8 : j < 8 := List.mem_range.mp hj
  have ha : x8 * 8 + (8 - 1 - (7 - j)) = x8 * 8 + j := by omega
  simp only [Function.comp_apply, ha]

/-- The bit loop of the rasterizer paints exactly the claim's per-byte pixels. -/
theorem bitsDraw_spec (cd : CharData) (pos : Int × Int) (color : Color) (scale : Int)
    (y : Int) (x8 : Nat) (hs : scale ≠ 0) (byte : Nat) (b : PixBuf) :
    bitsDraw cd pos color scale y x8 byte 8 b
      = some (paintScaled b (specByte cd pos scale y x8 byte) scale color) := by
  rw [bitsDraw_paint cd pos color scale y x8 hs]
  congr 1
  rw [specByte_eq_rev]
  exact (paintScaled_perm b _ _ scale color (List.reverse_perm _)).symm

/-- The per-row loop paints exactly the claim's per-row pixels. -/
theorem lineDraw_spec (cd : CharData) (pos : Int × Int) (color : Color) (scale : Int)
    (y : Int) (hs : scale ≠ 0) :
    ∀ (line : List Nat) (x8 : Nat) (b : PixBuf),
      lineDraw cd pos color scale y line x8 b
        = some (paintScaled b (specRow cd pos scale y line x8) scale color) := by
  intro line
  induction line with
  | nil => intro x8 b; rfl
  | cons byte rest ih =>
    intro x8 b
    simp only [lineDraw, bitsDraw_spec cd pos color scale y x8 hs byte b]
    rw [ih, specRow, paintScaled_append]

/-- The row loop paints exactly the claim's pixels of the processed rows. -/
theorem drawRows_spec (cd : CharData) (pos : Int × Int) (color : Color) (scale : Int)
    (hs : scale ≠ 0) :
    ∀ (n yn : Nat) (b : PixBuf),
      (yn + n) * dataWidthU cd ≤ cd.data.length →
      drawRows cd pos color scale (dataWidthU cd) n
          (cd.data.drop (yn * dataWidthU cd)) ((yn : Nat) : Int) b
        = some (paintScaled b (specRows cd pos scale n yn) scale color) := by
  intro n
  induction n with
  | zero => intro yn b _; rfl
  | succ n ih =>
    intro yn b hlen
    have hstep : (yn + 1) * dataWidthU cd ≤ cd.data.length :=
      le_trans (Nat.mul_le_mul_right _ (by omega)) hlen
    have hguard : dataWidthU cd ≤ (cd.data.drop (yn * dataWidthU cd)).length := by
      rw [List.length_drop]
      have h2 : (yn + 1) * dataWidthU cd = yn * dataWidthU cd + dataWidthU cd := by ring
      exact Nat.le_sub_of_add_le (by omega)
    have hdrop : (cd.data.drop (yn * dataWidthU cd)).drop (dataWidthU cd)
        = cd.data.drop ((yn + 1) * dataWidthU cd) := by
      rw [List.drop_drop]
      congr 1
      ring
    have hy : ((yn : Nat) : Int) + 1 = (((yn + 1 : Nat) : Nat) : Int) := by push_cast; ring
    simp only [drawRows, if_pos hguard]
    rw [lineDraw_spec cd pos color scale _ hs]
    dsimp only
    rw [hdrop, hy, ih (yn + 1) _ (le_trans (le_of_eq (by ring)) hlen)]
    rw [specRows, paintScaled_append]

/-- Claim C6, amended: for every non-zero scale and every glyph whose bitmap
holds at least `height * dataWidth` bytes, the rasterizer paints exactly the
logical pixels of the set bits — rows top to bottom, bytes left to right,
bits high-to-low with bit 7 the leftmost of its byte's group — each at the
claim's position formula, through `set_scaled_pixel`; `set_pixel` drops any
coordinate outside `[0, width) × [0, height)` without indexing the buffer;
and `set_scaled_pixel` paints exactly the `scale × scale` destination block
`[x*scale, x*scale+scale) × [y*scale, y*scale+scale)` of its logical pixel. -/
theorem c6_rasterizer :
    (∀ (cd : CharData) (b : PixBuf) (pos : Int × Int) (color : Color) (scale : Int),
        scale ≠ 0 →
        cd.height.toNat * dataWidthU cd ≤ cd.data.length →
        cd.draw b pos color scale
          = some (paintScaled b (specRasterPixels cd pos scale) scale color))
    ∧ (∀ (b : PixBuf) (x y : Int) (c : Color),
        ¬ (0 ≤ x ∧ 0 ≤ y ∧ x < b.width ∧ y < b.height) → b.set_pixel x y c = b)
    ∧ (∀ (b : PixBuf) (x y s : Int) (c : Color),
        b.set_scaled_pixel x y s c = paintPix b (blockCoords x y s) c)
    ∧ (∀ (x y s px py : Int),
        (px, py) ∈ blockCoords x y s ↔
          (x * s ≤ px ∧ px < x * s + s ∧ y * s ≤ py ∧ py < y * s + s)) := by
  refine ⟨?_, ?_, ?_, ?_⟩
  · intro cd b pos color scale hs hlen
    have h0 := drawRows_spec cd pos color scale hs cd.height.toNat 0 b
      (by rwa [Nat.zero_add])
    rw [Nat.zero_mul, List.drop_zero, Nat.cast_zero] at h0
    exact h0
  · intro b x y c h
    unfold PixBuf.set_pixel
    rw [if_neg h]
  · intro b x y s c
    exact set_scaled_eq_paintPix b x y s c
  · intro x y s px py
    unfold blockCoords
    rw [List.mem_flatMap]
    constructor
    · rintro ⟨yy, hyy, hx⟩
      rw [List.mem_map] at hx
      obtain ⟨xx, hxx, hp⟩ := hx
      rw [mem_rangeI] at hyy
      rw [mem_rangeI] at hxx
      have hxeq : xx = px := congrArg Prod.fst hp
      have hyeq : yy = py := congrArg Prod.snd hp
      subst hxeq
      subst hyeq
      omega
    · rintro ⟨h1, h2, h3, h4⟩
      refine ⟨py, ?_, ?_⟩
      · rw [mem_rangeI]
        omega
      · rw [List.mem_map]
        exact ⟨px, by rw [mem_rangeI]; omega, rfl⟩

/-- Claim C6, witness: a one-row glyph with only bit 7 of its single byte set,
drawn at scale 1, paints exactly the claim's pixel list; an out-of-bounds
`set_pixel` is dropped. -/
theorem c6_witness :
    CharData.draw (CharData.mk 8 1 0 0 [128]) buf44 (0, 0) red 1
      = some (paintScaled buf44
          (specRasterPixels (CharData.mk 8 1 0 0 [128]) (0, 0) 1) 1 red) ∧
    PixBuf.set_pixel buf44 (-1) 0 red = buf44 :=
  ⟨c6_rasterizer.1 (CharData.mk 8 1 0 0 [128]) buf44 (0, 0) red 1 (by decide) (by decide),
   c6_rasterizer.2.1 buf44 (-1) 0 red (by decide)⟩

/-- Claim C6, counterexample to the every-scale clause: at `scale = 0` the
rasterizer evaluates `pos.0 / scale` for the first set bit, a division by
zero that panics in Rust (`none` in the model) — nothing is painted or
clipped. -/
theorem c6_counterexample :
    CharData.draw (CharData.mk 8 1 0 0 [128]) buf44 (0, 0) red 0 = none := by decide

/-! ## Claim C8 -/

/-- The remaining rect after `k` `cut`s of `w × h` from `r0`. -/
def remAt (dir : CutDir) (r0 : Rect) (w h : Int) (k : Nat) : Rect :=
  match dir with
  | CutDir.Horizontal =>
    Rect.mk (r0.x + k * w) r0.y (r0.width - k * w) (r0.height - k * h)
  | CutDir.Vertical =>
    Rect.mk r0.x (r0.y + k * h) (r0.width - k * w) (r0.height - k * h)

/-- The `k`-th carved sub-rect of the tab strip. -/
def carvedAt (dir : CutDir) (r0 : Rect) (w h : Int) (k : Nat) : Rect :=
  match dir with
  | CutDir.Horizontal => Rect.mk (r0.x + k * w) r0.y w h
  | CutDir.Vertical => Rect.mk r0.x (r0.y + k * h) w h

/-- The per-tab width `Tabs::draw` computes for an `N`-tab strip. -/
def tabW (c : Canvas) (N : Nat) : Int :=
  match c.visuals.dir with
  | CutDir.Horizontal => Int.tdiv c.rect.width N
  | CutDir.Vertical => c.rect.width

/-- The per-tab height `Tabs::draw` computes for an `N`-tab strip. -/
def tabH (c : Canvas) (N : Nat) : Int :=
  match c.visuals.dir with
  | CutDir.Horizontal => c.rect.height
  | CutDir.Vertical => Int.tdiv c.rect.height N

/-- Loop invariant of the `Tabs::draw` iteration: after `k` cuts the canvas
agrees with the original on events, visuals and pixel-buffer shape, and its
rect is the `k`-step remaining rect. -/
def loopInv (c0 : Canvas) (w h : Int) (k : Nat) (ck : Canvas) : Prop :=
  ck.events = c0.events ∧ ck.visuals = c0.visuals ∧
  ck.pix.width = c0.pix.width ∧ ck.pix.height = c0.pix.height ∧
  ck.pix.buf.length = c0.pix.buf.length ∧
  ck.rect = remAt c0.visuals.dir c0.rect w h k

/-- `usizeCast` is `toNat` on small non-negative values. -/
theorem usizeCast_small (v : Int) (h1 : 0 ≤ v) (h2 : v < 2 ^ 64) :
    usizeCast v = v.toNat := by
  unfold usizeCast
  omega

/-- `setRange` preserves the buffer length when the range is in bounds. -/
theorem setRange_length (buf : List Color) (s t : Nat) (c : Color)
    (h1 : s ≤ t) (h2 : t ≤ buf.length) : (setRange buf s t c).length = buf.length := by
  unfold setRange
  simp only [List.length_append, List.length_take, List.length_replicate, List.length_drop]
  omega

/-- The row loop of `fill` succeeds (no slice panic) and preserves the buffer
length whenever the rect rows lie inside the buffer. -/
theorem fillRows_some (W HH rx rw : Int) (color : Color)
    (hrx : 0 ≤ rx) (hrw : 0 ≤ rw) (hxw : rx + rw ≤ W)
    (h0W : 0 ≤ W) (hW31 : W < 2 ^ 31) (hH31 : HH < 2 ^ 31) :
    ∀ (rows : Nat) (y : Int) (buf : List Color),
      0 ≤ y → y + rows ≤ HH → buf.length = (W * HH).toNat →
      ∃ nb, fillRows buf W rx rw color y rows = some nb ∧ nb.length = buf.length := by
  intro rows
  induction rows with
  | zero => intro y buf _ _ _; exact ⟨buf, rfl, rfl⟩
  | succ n ih =>
    intro y buf hy hyr hwf
    have hHH : 0 ≤ HH := by omega
    have hWH : W * HH < 2 ^ 62 := by
      calc W * HH ≤ (2 ^ 31 - 1) * (2 ^ 31 - 1) :=
            mul_le_mul (by omega) (by omega) hHH (by omega)
        _ < 2 ^ 62 := by norm_num
    have hWHnn : 0 ≤ W * HH := mul_nonneg h0W hHH
    have hstart : 0 ≤ y * W + rx := by positivity
    have hend : y * W + rx + rw ≤ W * HH := by
      have h1 : y * W + rx + rw ≤ y * W + W := by omega
      have h2 : y * W + W = (y + 1) * W := by ring
      have h3 : (y + 1) * W ≤ HH * W := by
        apply mul_le_mul_of_nonneg_right _ h0W
        omega
      have h4 : HH * W = W * HH := by ring
      omega
    have hu1 : usizeCast (y * W + rx) = (y * W + rx).toNat :=
      usizeCast_small _ hstart (by omega)
    have hu2 : usizeCast (y * W + rx + rw) = (y * W + rx + rw).toNat :=
      usizeCast_small _ (by omega) (by omega)
    have hcond : usizeCast (y * W + rx) ≤ usizeCast (y * W + rx + rw) ∧
        usizeCast (y * W + rx + rw) ≤ buf.length := by
      rw [hu1, hu2, hwf]
      omega
    have hsr := setRange_length buf (usizeCast (y * W + rx))
      (usizeCast (y * W + rx + rw)) color hcond.1 hcond.2
    obtain ⟨nb, he, hlen⟩ := ih (y + 1)
      (setRange buf (usizeCast (y * W + rx)) (usizeCast (y * W + rx + rw)) color)
      (by omega) (by push_cast at hyr ⊢; omega) (by rw [hsr, hwf])
    refine ⟨nb, ?_, by rw [hlen, hsr]⟩
    simp only [fillRows, if_pos hcond]
    exact he

/-- `Canvas::fill` succeeds and only changes the buffer contents when the
current rect (with non-negative size) lies inside a well-formed buffer. -/
theorem canvas_fill_some (c : Canvas) (color : Color)
    (hx : 0 ≤ c.rect.x) (hy : 0 ≤ c.rect.y) (hw : 0 ≤ c.rect.width) (hh : 0 ≤ c.rect.height)
    (hxw : c.rect.x + c.rect.width ≤ c.pix.width)
    (hyh : c.rect.y + c.rect.height ≤ c.pix.height)
    (h0W : 0 ≤ c.pix.width) (hW31 : c.pix.width < 2 ^ 31) (hH31 : c.pix.height < 2 ^ 31)
    (hwf : c.pix.buf.length = (c.pix.width * c.pix.height).toNat) :
    ∃ c', c.fill color = some c' ∧ c'.rect = c.rect ∧ c'.visuals = c.visuals ∧
      c'.events = c.events ∧ c'.pix.width = c.pix.width ∧ c'.pix.height = c.pix.height ∧
      c'.pix.buf.length = c.pix.buf.length := by
  obtain ⟨nb, he, hlen⟩ := fillRows_some c.pix.width c.pix.height c.rect.x c.rect.width color
    hx hw hxw h0W hW31 hH31 c.rect.height.toNat c.rect.y c.pix.buf hy (by omega) hwf
  refine ⟨{ c with pix := { c.pix with buf := nb } }, ?_, rfl, rfl, rfl, rfl, rfl, hlen⟩
  unfold Canvas.fill
  rw [he]
  rfl

/-- One body of the `Tabs::draw` loop, on a canvas with the left button held:
the selection becomes the tab exactly when the cursor is inside the body's
rect, the body cannot panic (the highlight fill is guarded by the hypotheses),
and events and buffer shape are preserved. -/
theorem tabBody_eval {T : Type} [DecidableEq T]
    (render : T → Canvas → Option Canvas)
    (hrender : ∀ (t : T) (cc : Canvas), ∃ cc', render t cc = some cc' ∧
      cc'.events = cc.events ∧ cc'.pix.width = cc.pix.width ∧
      cc'.pix.height = cc.pix.height ∧ cc'.pix.buf.length = cc.pix.buf.length)
    (cx cy : Int) (tab sel : T) (cb : Canvas)
    (hcur : cb.events.cursor = some (cx, cy))
    (hleft : cb.events.mouse_left = true)
    (hfill : cb.rect.contains cx cy = true →
      ∃ cf, cb.fill cb.visuals.color = some cf ∧ cf.events = cb.events ∧
        cf.pix.width = cb.pix.width ∧ cf.pix.height = cb.pix.height ∧
        cf.pix.buf.length = cb.pix.buf.length) :
    ∃ c2, tabBody render true tab sel cb
        = some ((if cb.rect.contains cx cy then tab else sel), c2)
      ∧ c2.events = cb.events ∧ c2.pix.width = cb.pix.width ∧
        c2.pix.height = cb.pix.height ∧ c2.pix.buf.length = cb.pix.buf.length := by
  have hml : cb.mouse_left = cb.rect.contains cx cy := by
    unfold Canvas.mouse_left Canvas.hover
    rw [hcur, hleft, Bool.and_true]
  by_cases hcon : cb.rect.contains cx cy = true
  · obtain ⟨cf, hcf, hcfe, hcfw, hcfh, hcfl⟩ := hfill hcon
    obtain ⟨cr, hcr, hcre, hcrw, hcrh, hcrl⟩ := hrender tab
      { cf with visuals := { cf.visuals with color := invert cf.visuals.color } }
    refine ⟨{ cr with visuals := { cr.visuals with color := invert cr.visuals.color } },
      ?_, by rw [hcre, hcfe], by rw [hcrw, hcfw], by rw [hcrh, hcfh], by rw [hcrl, hcfl]⟩
    unfold tabBody
    rw [hml, hcon]
    simp only [if_pos rfl, Bool.not_true, Bool.false_or, and_self, if_true, ite_true,
      Option.bind_eq_bind]
    rw [hcf]
    simp only [Option.some_bind]
    rw [hcr]
    simp only [Option.some_bind]
  · have hcon2 : cb.rect.contains cx cy = false := by
      revert hcon
      cases cb.rect.contains cx cy <;> simp
    obtain ⟨cr, hcr, hcre, hcrw, hcrh, hcrl⟩ := hrender tab cb
    refine ⟨cr, ?_, hcre, hcrw, hcrh, hcrl⟩
    unfold tabBody
    rw [hml, hcon2]
    have hsel : (if (false : Bool) = true then tab else sel) = sel := rfl
    rw [hsel]
    dsimp only
    rw [if_neg (by simp : ¬ (tab = sel ∧ (!true || false) = true))]
    rw [hcr]

/-- One iteration of the `Tabs::draw` loop through `cutS`: the carved rect is
the `k`-th strip sub-rect, the selection becomes the tab exactly when the
cursor is inside it, no panic occurs, and the loop invariant advances. -/
theorem cutS_step {T : Type} [DecidableEq T]
    (render : T → Canvas → Option Canvas)
    (hrender : ∀ (t : T) (cc : Canvas), ∃ cc', render t cc = some cc' ∧
      cc'.events = cc.events ∧ cc'.pix.width = cc.pix.width ∧
      cc'.pix.height = cc.pix.height ∧ cc'.pix.buf.length = cc.pix.buf.length)
    (c0 : Canvas) (cx cy w h : Int)
    (hcur : c0.events.cursor = some (cx, cy))
    (hleft : c0.events.mouse_left = true)
    (h0W : 0 ≤ c0.pix.width) (hW31 : c0.pix.width < 2 ^ 31) (hH31 : c0.pix.height < 2 ^ 31)
    (hwf : c0.pix.buf.length = (c0.pix.width * c0.pix.height).toNat)
    (k : Nat) (tab sel : T) (ck : Canvas)
    (hgeo : (carvedAt c0.visuals.dir c0.rect w h k).contains cx cy = true →
      0 ≤ (carvedAt c0.visuals.dir c0.rect w h k).x ∧
      0 ≤ (carvedAt c0.visuals.dir c0.rect w h k).y ∧ 0 ≤ w ∧ 0 ≤ h ∧
      (carvedAt c0.visuals.dir c0.rect w h k).x + w ≤ c0.pix.width ∧
      (carvedAt c0.visuals.dir c0.rect w h k).y + h ≤ c0.pix.height)
    (hInv : loopInv c0 w h k ck) :
    ∃ c1, ck.cutS w h (tabBody render true tab sel)
        = some ((if (carvedAt c0.visuals.dir c0.rect w h k).contains cx cy then tab
            else sel), c1)
      ∧ loopInv c0 w h (k + 1) c1 := by
  obtain ⟨hev, hvis, hpw, hph, hpl, hrect⟩ := hInv
  obtain ⟨pix0, rect0, vis0, ev0⟩ := c0
  obtain ⟨f0, ts0, dir0, col0⟩ := vis0
  have hcw : ∀ m : Nat, (carvedAt dir0 rect0 w h m).width = w := by
    intro m; cases dir0 <;> rfl
  have hch : ∀ m : Nat, (carvedAt dir0 rect0 w h m).height = h := by
    intro m; cases dir0 <;> rfl
  have hfill0 : ∀ cb : Canvas, cb.pix = ck.pix → cb.events = ck.events →
      cb.rect = carvedAt dir0 rect0 w h k →
      cb.rect.contains cx cy = true →
      ∃ cf, cb.fill cb.visuals.color = some cf ∧ cf.events = cb.events ∧
        cf.pix.width = cb.pix.width ∧ cf.pix.height = cb.pix.height ∧
        cf.pix.buf.length = cb.pix.buf.length := by
    intro cb hp he hr hcon
    rw [hr] at hcon
    obtain ⟨g1, g2, g3, g4, g5, g6⟩ := hgeo hcon
    obtain ⟨cf, hcf, _, _, hcfe, hcfw, hcfh, hcfl⟩ := canvas_fill_some cb cb.visuals.color
      (by rw [hr]; exact g1) (by rw [hr]; exact g2)
      (by rw [hr, hcw k]; exact g3)
      (by rw [hr, hch k]; exact g4)
      (by rw [hr, hcw k, hp, hpw]; exact g5)
      (by rw [hr, hch k, hp, hph]; exact g6)
      (by rw [hp, hpw]; exact h0W) (by rw [hp, hpw]; exact hW31)
      (by rw [hp, hph]; exact hH31)
      (by rw [hp, hpw, hph, hpl]; exact hwf)
    exact ⟨cf, hcf, hcfe, hcfw, hcfh, hcfl⟩
  obtain ⟨c2, hbody, hc2e, hc2w, hc2h, hc2l⟩ :=
    tabBody_eval render hrender cx cy tab sel
      { ck with rect := carvedAt dir0 rect0 w h k }
      (by rw [show ({ ck with rect := carvedAt dir0 rect0 w h k } : Canvas).events
          = ck.events from rfl, hev]; exact hcur)
      (by rw [show ({ ck with rect := carvedAt dir0 rect0 w h k } : Canvas).events
          = ck.events from rfl, hev]; exact hleft)
      (hfill0 _ rfl rfl rfl)
  have hcarved : Rect.mk ck.rect.x ck.rect.y w h = carvedAt dir0 rect0 w h k := by
    rw [hrect]
    cases dir0 <;> simp [remAt, carvedAt]
  cases dir0 with
  | Horizontal =>
    have hdirck : ck.visuals.dir = CutDir.Horizontal := by rw [hvis]
    refine ⟨{ c2 with
        rect := Rect.mk (ck.rect.x + w) ck.rect.y (ck.rect.width - w) (ck.rect.height - h),
        visuals := ck.visuals }, ?_, ?_, ?_, ?_, ?_, ?_, ?_⟩
    · unfold Canvas.cutS
      rw [hdirck]
      dsimp only
      rw [hcarved, hbody]
    · rw [show ({ c2 with
          rect := Rect.mk (ck.rect.x + w) ck.rect.y (ck.rect.width - w) (ck.rect.height - h),
          visuals := ck.visuals } : Canvas).events = c2.events from rfl, hc2e]
      exact hev
    · rw [hvis]
    · rw [hc2w]; exact hpw
    · rw [hc2h]; exact hph
    · rw [hc2l]; exact hpl
    · rw [hrect]
      simp only [remAt]
      rw [Rect.mk.injEq]
      push_cast
      refine ⟨by ring, rfl, by ring, by ring⟩
  | Vertical =>
    have hdirck : ck.visuals.dir = CutDir.Vertical := by rw [hvis]
    refine ⟨{ c2 with
        rect := Rect.mk ck.rect.x (ck.rect.y + h) (ck.rect.width - w) (ck.rect.height - h),
        visuals := ck.visuals }, ?_, ?_, ?_, ?_, ?_, ?_, ?_⟩
    · unfold Canvas.cutS
      rw [hdirck]
      dsimp only
      rw [hcarved, hbody]
    · rw [show ({ c2 with
          rect := Rect.mk ck.rect.x (ck.rect.y + h) (ck.rect.width - w) (ck.rect.height - h),
          visuals := ck.visuals } : Canvas).events = c2.events from rfl, hc2e]
      exact hev
    · rw [hvis]
    · rw [hc2w]; exact hpw
    · rw [hc2h]; exact hph
    · rw [hc2l]; exact hpl
    · rw [hrect]
      simp only [remAt]
      rw [Rect.mk.injEq]
      push_cast
      refine ⟨rfl, by ring, by ring, by ring⟩

/-- Once past the pressed tab, the remaining loop iterations keep the
selection unchanged (the cursor is in none of the later sub-rects) and
cannot panic. -/
theorem tabsLoop_after {T : Type} [DecidableEq T]
    (render : T → Canvas → Option Canvas)
    (hrender : ∀ (t : T) (cc : Canvas), ∃ cc', render t cc = some cc' ∧
      cc'.events = cc.events ∧ cc'.pix.width = cc.pix.width ∧
      cc'.pix.height = cc.pix.height ∧ cc'.pix.buf.length = cc.pix.buf.length)
    (c0 : Canvas) (cx cy w h : Int)
    (hcur : c0.events.cursor = some (cx, cy))
    (hleft : c0.events.mouse_left = true)
    (h0W : 0 ≤ c0.pix.width) (hW31 : c0.pix.width < 2 ^ 31) (hH31 : c0.pix.height < 2 ^ 31)
    (hwf : c0.pix.buf.length = (c0.pix.width * c0.pix.height).toNat) :
    ∀ (suffix : List T) (k : Nat) (sel : T) (ck : Canvas),
      (∀ m : Nat, k ≤ m → (carvedAt c0.visuals.dir c0.rect w h m).contains cx cy = false) →
      loopInv c0 w h k ck →
      ∃ cend, tabsLoop render w h true suffix sel ck = some (sel, cend) := by
  intro suffix
  induction suffix with
  | nil => intro k sel ck _ _; exact ⟨ck, rfl⟩
  | cons tab rest ih =>
    intro k sel ck hmiss hInv
    obtain ⟨c1, hstep, hInv1⟩ := cutS_step render hrender c0 cx cy w h hcur hleft
      h0W hW31 hH31 hwf k tab sel ck
      (fun hcon => absurd hcon (by simp [hmiss k le_rfl])) hInv
    rw [hmiss k le_rfl] at hstep
    obtain ⟨cend, hrest⟩ := ih (k + 1) sel c1 (fun m hm => hmiss m (by omega)) hInv1
    refine ⟨cend, ?_⟩
    simp only [tabsLoop]
    rw [hstep]
    simp only [Bool.false_eq_true, if_false]
    exact hrest

/-- From any iteration at or before the pressed tab, the loop ends with the
selection equal to the pressed tab. -/
theorem tabsLoop_hit {T : Type} [DecidableEq T]
    (render : T → Canvas → Option Canvas)
    (hrender : ∀ (t : T) (cc : Canvas), ∃ cc', render t cc = some cc' ∧
      cc'.events = cc.events ∧ cc'.pix.width = cc.pix.width ∧
      cc'.pix.height = cc.pix.height ∧ cc'.pix.buf.length = cc.pix.buf.length)
    (c0 : Canvas) (cx cy w h : Int)
    (hcur : c0.events.cursor = some (cx, cy))
    (hleft : c0.events.mouse_left = true)
    (h0W : 0 ≤ c0.pix.width) (hW31 : c0.pix.width < 2 ^ 31) (hH31 : c0.pix.height < 2 ^ 31)
    (hwf : c0.pix.buf.length = (c0.pix.width * c0.pix.height).toNat)
    (tabs : List T) (i : Nat) (hi : i < tabs.length)
    (hmiss : ∀ m : Nat, m ≠ i →
      (carvedAt c0.visuals.dir c0.rect w h m).contains cx cy = false)
    (hhit : (carvedAt c0.visuals.dir c0.rect w h i).contains cx cy = true)
    (hgeoi : 0 ≤ (carvedAt c0.visuals.dir c0.rect w h i).x ∧
      0 ≤ (carvedAt c0.visuals.dir c0.rect w h i).y ∧ 0 ≤ w ∧ 0 ≤ h ∧
      (carvedAt c0.visuals.dir c0.rect w h i).x + w ≤ c0.pix.width ∧
      (carvedAt c0.visuals.dir c0.rect w h i).y + h ≤ c0.pix.height) :
    ∀ (d k : Nat), k + d = i → ∀ (sel : T) (ck : Canvas), loopInv c0 w h k ck →
      (tabsLoop render w h true (tabs.drop k) sel ck).map Prod.fst
        = some (tabs.get ⟨i, hi⟩) := by
  intro d
  induction d with
  | zero =>
    intro k hk sel ck hInv
    have hki : k = i := by omega
    subst hki
    rw [List.drop_eq_getElem_cons hi]
    obtain ⟨c1, hstep, hInv1⟩ := cutS_step render hrender c0 cx cy w h hcur hleft
      h0W hW31 hH31 hwf k (tabs.get ⟨k, hi⟩) sel ck (fun _ => hgeoi) hInv
    rw [hhit] at hstep
    simp only [if_true, List.get_eq_getElem] at hstep
    obtain ⟨cend, hrest⟩ := tabsLoop_after render hrender c0 cx cy w h hcur hleft
      h0W hW31 hH31 hwf (tabs.drop (k + 1)) (k + 1) (tabs.get ⟨k, hi⟩) c1
      (fun m hm => hmiss m (by omega)) hInv1
    simp only [List.get_eq_getElem] at hrest
    simp only [tabsLoop, List.get_eq_getElem]
    rw [hstep]
    dsimp only
    rw [hrest]
    rfl
  | succ d ihd =>
    intro k hk sel ck hInv
    have hkN : k < tabs.length := by omega
    rw [List.drop_eq_getElem_cons hkN]
    obtain ⟨c1, hstep, hInv1⟩ := cutS_step render hrender c0 cx cy w h hcur hleft
      h0W hW31 hH31 hwf k (tabs.get ⟨k, hkN⟩) sel ck
      (fun hcon => absurd hcon (by simp [hmiss k (by omega)])) hInv
    rw [hmiss k (by omega)] at hstep
    simp only [Bool.false_eq_true, if_false] at hstep
    have hnext := ihd (k + 1) (by omega) sel c1 hInv1
    simp only [List.get_eq_getElem] at hstep hnext
    simp only [tabsLoop, List.get_eq_getElem]
    rw [hstep]
    exact hnext

/-- If a truncated division of `W` by a positive `N` is positive, `W` is
positive and `N * (W.tdiv N)` does not exceed `W`. -/
theorem tdiv_facts (W : Int) (N : Nat) (hN : 0 < N) (hq : 0 < Int.tdiv W (N : Int)) :
    0 < W ∧ (N : Int) * Int.tdiv W (N : Int) ≤ W := by
  have hNpos : (0 : Int) < (N : Int) := by exact_mod_cast hN
  by_cases hW : 0 ≤ W
  · have he : Int.tdiv W (N : Int) = W / (N : Int) := Int.tdiv_eq_ediv hW (le_of_lt hNpos)
    rw [he]
    rw [he] at hq
    have h1 := Int.ediv_add_emod W (N : Int)
    have h2 := Int.emod_nonneg W (by omega : (N : Int) ≠ 0)
    have h3 : (N : Int) * 1 ≤ (N : Int) * (W / (N : Int)) :=
      mul_le_mul_of_nonneg_left (by omega) (le_of_lt hNpos)
    constructor
    · omega
    · omega
  · exfalso
    have hne : Int.tdiv W (N : Int) = -(Int.tdiv (-W) (N : Int)) := by
      rw [← Int.neg_tdiv, neg_neg]
    have hpos : 0 ≤ Int.tdiv (-W) (N : Int) := by
      rw [Int.tdiv_eq_ediv (by omega) (le_of_lt hNpos)]
      exact Int.ediv_nonneg (by omega) (le_of_lt hNpos)
    omega

/-- Claim C8: when the `Tabs` widget is drawn over a strip divided into
`tabs.length` equal sub-rects along the active cut direction — with the strip
inside a well-formed pixel buffer, and every per-tab render body total and
events/buffer-shape preserving, as the program's text rendering is — if the
cursor lies inside the `i`-th tab's sub-rect and the left button is held,
then after the draw call the externally owned selection equals the `i`-th
tab. -/
theorem c8_tabs_press {T : Type} [DecidableEq T]
    (tabs : List T) (render : T → Canvas → Option Canvas) (sel : T) (c : Canvas)
    (i : Nat) (hi : i < tabs.length) (cx cy : Int)
    (hrender : ∀ (t : T) (cc : Canvas), ∃ cc', render t cc = some cc' ∧
      cc'.events = cc.events ∧ cc'.pix.width = cc.pix.width ∧
      cc'.pix.height = cc.pix.height ∧ cc'.pix.buf.length = cc.pix.buf.length)
    (hcur : c.events.cursor = some (cx, cy))
    (hleft : c.events.mouse_left = true)
    (hin : (carvedAt c.visuals.dir c.rect (tabW c tabs.length) (tabH c tabs.length) i).contains
        cx cy = true)
    (hrx : 0 ≤ c.rect.x) (hry : 0 ≤ c.rect.y)
    (hrxw : c.rect.x + c.rect.width ≤ c.pix.width)
    (hryh : c.rect.y + c.rect.height ≤ c.pix.height)
    (h0W : 0 ≤ c.pix.width) (hW31 : c.pix.width < 2 ^ 31) (hH31 : c.pix.height < 2 ^ 31)
    (hwf : c.pix.buf.length = (c.pix.width * c.pix.height).toNat) :
    (tabsDraw tabs render sel c).map Prod.fst = some (tabs.get ⟨i, hi⟩) := by
  have hN0 : ¬ tabs.length = 0 := by omega
  obtain ⟨pix0, rect0, vis0, ev0⟩ := c
  obtain ⟨f0, ts0, dir0, col0⟩ := vis0
  dsimp only at hcur hleft hrx hry hrxw hryh h0W hW31 hH31 hwf
  cases dir0 with
  | Horizontal =>
    simp only [tabW, tabH] at hin
    obtain ⟨hWpos, hNw⟩ := tdiv_facts rect0.width tabs.length (by omega) (by
      have hq := hin
      simp only [carvedAt, Rect.contains, Bool.and_eq_true, decide_eq_true_eq,
        ge_iff_le] at hq
      omega)
    have hnum : rect0.x + (i : Int) * Int.tdiv rect0.width (tabs.length : Int) ≤ cx ∧
        rect0.y ≤ cy ∧
        cx < rect0.x + (i : Int) * Int.tdiv rect0.width (tabs.length : Int)
          + Int.tdiv rect0.width (tabs.length : Int) ∧
        cy < rect0.y + rect0.height := by
      have hq := hin
      simp only [carvedAt, Rect.contains, Bool.and_eq_true, decide_eq_true_eq,
        ge_iff_le] at hq
      exact ⟨hq.1.1.1, hq.1.1.2, hq.1.2, hq.2⟩
    obtain ⟨hn1, hn2, hn3, hn4⟩ := hnum
    have hwpos : 0 < Int.tdiv rect0.width (tabs.length : Int) := by omega
    have hhpos : 0 < rect0.height := by omega
    have hmono : ∀ (m k2 : Nat), m ≤ k2 →
        (m : Int) * Int.tdiv rect0.width (tabs.length : Int)
          ≤ (k2 : Int) * Int.tdiv rect0.width (tabs.length : Int) := by
      intro m k2 hmk
      exact mul_le_mul_of_nonneg_right (by exact_mod_cast hmk) (le_of_lt hwpos)
    have hiw : ((i : Int) + 1) * Int.tdiv rect0.width (tabs.length : Int)
        ≤ (tabs.length : Int) * Int.tdiv rect0.width (tabs.length : Int) := by
      have hq := hmono (i + 1) tabs.length (by omega)
      push_cast at hq
      exact hq
    have hiexp : ((i : Int) + 1) * Int.tdiv rect0.width (tabs.length : Int)
        = (i : Int) * Int.tdiv rect0.width (tabs.length : Int)
          + Int.tdiv rect0.width (tabs.length : Int) := by ring
    have hiw0 : 0 ≤ (i : Int) * Int.tdiv rect0.width (tabs.length : Int) := by positivity
    have hmiss : ∀ m : Nat, m ≠ i →
        (carvedAt CutDir.Horizontal rect0 (Int.tdiv rect0.width (tabs.length : Int))
          rect0.height m).contains cx cy = false := by
      intro m hm
      rw [Bool.eq_false_iff]
      intro hcon
      simp only [carvedAt, Rect.contains, Bool.and_eq_true, decide_eq_true_eq,
        ge_iff_le] at hcon
      obtain ⟨⟨⟨hc1, _⟩, hc3⟩, _⟩ := hcon
      have hmexp : ((m : Int) + 1) * Int.tdiv rect0.width (tabs.length : Int)
          = (m : Int) * Int.tdiv rect0.width (tabs.length : Int)
            + Int.tdiv rect0.width (tabs.length : Int) := by ring
      rcases Nat.lt_or_ge m i with hmi | hmi
      · have h1 := hmono (m + 1) i hmi
        push_cast at h1
        omega
      · have h1 := hmono (i + 1) m (by omega)
        push_cast at h1
        omega
    have hgeoi : 0 ≤ (carvedAt CutDir.Horizontal rect0
          (Int.tdiv rect0.width (tabs.length : Int)) rect0.height i).x ∧
        0 ≤ (carvedAt CutDir.Horizontal rect0
          (Int.tdiv rect0.width (tabs.length : Int)) rect0.height i).y ∧
        0 ≤ Int.tdiv rect0.width (tabs.length : Int) ∧ 0 ≤ rect0.height ∧
        (carvedAt CutDir.Horizontal rect0 (Int.tdiv rect0.width (tabs.length : Int))
            rect0.height i).x + Int.tdiv rect0.width (tabs.length : Int) ≤ pix0.width ∧
        (carvedAt CutDir.Horizontal rect0 (Int.tdiv rect0.width (tabs.length : Int))
            rect0.height i).y + rect0.height ≤ pix0.height := by
      simp only [carvedAt]
      refine ⟨by omega, by omega, by omega, by omega, by omega, by omega⟩
    have hInv0 : loopInv
        (Canvas.mk pix0 rect0 (Visuals.mk f0 ts0 CutDir.Horizontal col0) ev0)
        (Int.tdiv rect0.width (tabs.length : Int)) rect0.height 0
        (Canvas.mk pix0 rect0 (Visuals.mk f0 ts0 CutDir.Horizontal col0) ev0) := by
      refine ⟨rfl, rfl, rfl, rfl, rfl, ?_⟩
      simp only [remAt, Nat.cast_zero, zero_mul, add_zero, sub_zero]
    have hsel : (Canvas.mk pix0 rect0
        (Visuals.mk f0 ts0 CutDir.Horizontal col0) ev0).mouse_left = true := by
      unfold Canvas.mouse_left Canvas.hover
      dsimp only
      rw [hcur, hleft, Bool.and_true]
      simp only [Rect.contains, Bool.and_eq_true, decide_eq_true_eq, ge_iff_le]
      refine ⟨⟨⟨by omega, by omega⟩, by omega⟩, by omega⟩
    have hloop := tabsLoop_hit render hrender
      (Canvas.mk pix0 rect0 (Visuals.mk f0 ts0 CutDir.Horizontal col0) ev0) cx cy
      (Int.tdiv rect0.width (tabs.length : Int)) rect0.height hcur hleft h0W hW31 hH31 hwf
      tabs i hi hmiss hin hgeoi i 0 (by omega) sel _ hInv0
    rw [List.drop_zero] at hloop
    unfold tabsDraw
    rw [if_neg hN0]
    dsimp only
    rw [hsel]
    exact hloop
  | Vertical =>
    simp only [tabW, tabH] at hin
    obtain ⟨hHpos, hNh⟩ := tdiv_facts rect0.height tabs.length (by omega) (by
      have hq := hin
      simp only [carvedAt, Rect.contains, Bool.and_eq_true, decide_eq_true_eq,
        ge_iff_le] at hq
      omega)
    have hnum : rect0.x ≤ cx ∧
        rect0.y + (i : Int) * Int.tdiv rect0.height (tabs.length : Int) ≤ cy ∧
        cx < rect0.x + rect0.width ∧
        cy < rect0.y + (i : Int) * Int.tdiv rect0.height (tabs.length : Int)
          + Int.tdiv rect0.height (tabs.length : Int) := by
      have hq := hin
      simp only [carvedAt, Rect.contains, Bool.and_eq_true, decide_eq_true_eq,
        ge_iff_le] at hq
      exact ⟨hq.1.1.1, hq.1.1.2, hq.1.2, hq.2⟩
    obtain ⟨hn1, hn2, hn3, hn4⟩ := hnum
    have hhpos : 0 < Int.tdiv rect0.height (tabs.length : Int) := by omega
    have hwpos : 0 < rect0.width := by omega
    have hmono : ∀ (m k2 : Nat), m ≤ k2 →
        (m : Int) * Int.tdiv rect0.height (tabs.length : Int)
          ≤ (k2 : Int) * Int.tdiv rect0.height (tabs.length : Int) := by
      intro m k2 hmk
      exact mul_le_mul_of_nonneg_right (by exact_mod_cast hmk) (le_of_lt hhpos)
    have hih : ((i : Int) + 1) * Int.tdiv rect0.height (tabs.length : Int)
        ≤ (tabs.length : Int) * Int.tdiv rect0.height (tabs.length : Int) := by
      have hq := hmono (i + 1) tabs.length (by omega)
      push_cast at hq
      exact hq
    have hiexp : ((i : Int) + 1) * Int.tdiv rect0.height (tabs.length : Int)
        = (i : Int) * Int.tdiv rect0.height (tabs.length : Int)
          + Int.tdiv rect0.height (tabs.length : Int) := by ring
    have hih0 : 0 ≤ (i : Int) * Int.tdiv rect0.height (tabs.length : Int) := by positivity
    have hmiss : ∀ m : Nat, m ≠ i →
        (carvedAt CutDir.Vertical rect0 rect0.width
          (Int.tdiv rect0.height (tabs.length : Int)) m).contains cx cy = false := by
      intro m hm
      rw [Bool.eq_false_iff]
      intro hcon
      simp only [carvedAt, Rect.contains, Bool.and_eq_true, decide_eq_true_eq,
        ge_iff_le] at hcon
      obtain ⟨⟨⟨_, hc2⟩, _⟩, hc4⟩ := hcon
      have hmexp : ((m : Int) + 1) * Int.tdiv rect0.height (tabs.length : Int)
          = (m : Int) * Int.tdiv rect0.height (tabs.length : Int)
            + Int.tdiv rect0.height (tabs.length : Int) := by ring
      rcases Nat.lt_or_ge m i with hmi | hmi
      · have h1 := hmono (m + 1) i hmi
        push_cast at h1
        omega
      · have h1 := hmono (i + 1) m (by omega)
        push_cast at h1
        omega
    have hgeoi : 0 ≤ (carvedAt CutDir.Vertical rect0 rect0.width
          (Int.tdiv rect0.height (tabs.length : Int)) i).x ∧
        0 ≤ (carvedAt CutDir.Vertical rect0 rect0.width
          (Int.tdiv rect0.height (tabs.length : Int)) i).y ∧
        0 ≤ rect0.width ∧ 0 ≤ Int.tdiv rect0.height (tabs.length : Int) ∧
        (carvedAt CutDir.Vertical rect0 rect0.width
            (Int.tdiv rect0.height (tabs.length : Int)) i).x + rect0.width ≤ pix0.width ∧
        (carvedAt CutDir.Vertical rect0 rect0.width
            (Int.tdiv rect0.height (tabs.length : Int)) i).y
          + Int.tdiv rect0.height (tabs.length : Int) ≤ pix0.height := by
      simp only [carvedAt]
      refine ⟨by omega, by omega, by omega, by omega, by omega, by omega⟩
    have hInv0 : loopInv
        (Canvas.mk pix0 rect0 (Visuals.mk f0 ts0 CutDir.Vertical col0) ev0)
        rect0.width (Int.tdiv rect0.height (tabs.length : Int)) 0
        (Canvas.mk pix0 rect0 (Visuals.mk f0 ts0 CutDir.Vertical col0) ev0) := by
      refine ⟨rfl, rfl, rfl, rfl, rfl, ?_⟩
      simp only [remAt, Nat.cast_zero, zero_mul, add_zero, sub_zero]
    have hsel : (Canvas.mk pix0 rect0
        (Visuals.mk f0 ts0 CutDir.Vertical col0) ev0).mouse_left = true := by
      unfold Canvas.mouse_left Canvas.hover
      dsimp only
      rw [hcur, hleft, Bool.and_true]
      simp only [Rect.contains, Bool.and_eq_true, decide_eq_true_eq, ge_iff_le]
      refine ⟨⟨⟨by omega, by omega⟩, by omega⟩, by omega⟩
    have hloop := tabsLoop_hit render hrender
      (Canvas.mk pix0 rect0 (Visuals.mk f0 ts0 CutDir.Vertical col0) ev0) cx cy
      rect0.width (Int.tdiv rect0.height (tabs.length : Int)) hcur hleft h0W hW31 hH31 hwf
      tabs i hi hmiss hin hgeoi i 0 (by omega) sel _ hInv0
    rw [List.drop_zero] at hloop
    unfold tabsDraw
    rw [if_neg hN0]
    dsimp only
    rw [hsel]
    exact hloop

/-- Claim C8, witness: two tabs over the 4 × 4 canvas with horizontal cut
direction, cursor `(2, 0)` inside the second tab's sub-rect `(2, 0, 2, 4)`
and the left button held: the selection becomes the second tab. -/
theorem c8_witness :
    (tabsDraw [false, true] (fun _ cc => some cc) false canvas0).map Prod.fst
      = some true :=
  c8_tabs_press [false, true] (fun _ cc => some cc) false canvas0 1 (by decide) 2 0
    (fun _ cc => ⟨cc, rfl, rfl, rfl, rfl, rfl⟩) rfl rfl (by decide)
    (by decide) (by decide) (by decide) (by decide) (by decide) (by decide) (by decide)
    (by decide)
